import Mathlib

/-!
Shallow embedding of the gecos crate (src/lib.rs): a validated-string wrapper
`GecosSanitizedString`, the five-slot `Gecos` record, and the conversions
`Gecos.to_gecos_string` / `Gecos.from_gecos_string` between the record and the
flat comma-delimited passwd GECOS string.  Rust strings are modelled as
`List Char`; `str::split(',')` is `List.splitOn ','` and `Vec::join(",")` is
`List.intercalate [',']`.
-/

deriving instance DecidableEq for Except

/-- The error enum `GecosError` of the crate; its only variant carries the
offending character. -/
inductive GecosError where
  | IllegalPasswdChar : Char → GecosError
deriving DecidableEq, Repr

/-- The fixed probe list `INVALID_CHARS` of `GecosSanitizedString::new`,
in its source order. -/
def forbiddenChars : List Char := [',', ':', '=', '\\', '\"', '\n']

/-- The struct `GecosSanitizedString`: a wrapper around a string.  In Rust the
field is private and the type invariant (no forbidden character) is enforced by
the fallible constructor `new`; here validity is stated separately as
`GecosSanitizedString.Valid`. -/
structure GecosSanitizedString where
  str : List Char
deriving DecidableEq, Repr

/-- `GecosSanitizedString::new`: scan the fixed probe list `INVALID_CHARS` in
order and fail with the first probe character that occurs anywhere in `value`
(the Rust `for character in INVALID_CHARS { if value.contains(*character) ... }`
loop is `List.find?` over `forbiddenChars`). -/
def GecosSanitizedString.new (value : List Char) :
    Except GecosError GecosSanitizedString :=
  match forbiddenChars.find? (fun c => value.contains c) with
  | some c => Except.error (GecosError.IllegalPasswdChar c)
  | none => Except.ok ⟨value⟩

/-- The `Display` impl of `GecosSanitizedString`: renders the underlying text
unchanged. -/
def GecosSanitizedString.display (v : GecosSanitizedString) : List Char :=
  v.str

/-- The type invariant of `GecosSanitizedString` that Rust enforces through the
private field: the text contains no forbidden character. -/
def GecosSanitizedString.Valid (v : GecosSanitizedString) : Prop :=
  ∀ c ∈ forbiddenChars, c ∉ v.str

instance (v : GecosSanitizedString) : Decidable v.Valid := by
  unfold GecosSanitizedString.Valid; infer_instance

/-- The struct `Gecos`: four optional fixed slots and the open-ended `other`
vector. -/
structure Gecos where
  full_name : Option GecosSanitizedString
  room : Option GecosSanitizedString
  work_phone : Option GecosSanitizedString
  home_phone : Option GecosSanitizedString
  other : List GecosSanitizedString
deriving DecidableEq, Repr

/-- The macro `gecos_element_to_string!` of `to_gecos_string`:
`$sts.as_ref().unwrap_or(&"".to_string().try_into().unwrap())`, i.e. an absent
slot renders as the empty string. -/
def gecosElementToString (o : Option GecosSanitizedString) : List Char :=
  (o.getD ⟨[]⟩).str

/-- `Gecos::to_gecos_string`: the `format!("{},{},{},{},{}", ...)` of the four
slots followed by `other` joined with `,`. -/
def Gecos.to_gecos_string (g : Gecos) : List Char :=
  gecosElementToString g.full_name ++ [','] ++
  gecosElementToString g.room ++ [','] ++
  gecosElementToString g.work_phone ++ [','] ++
  gecosElementToString g.home_phone ++ [','] ++
  List.intercalate [','] (g.other.map GecosSanitizedString.str)

/-- The macro `gecos_string_element_to_gecos_object_element!` of
`from_gecos_string`: `None` (iterator exhausted) gives an absent slot, a
validation error aborts, and a validated empty string is mapped to `None` as
well. -/
def gecosStringElementToGecosObjectElement :
    Option (Except GecosError GecosSanitizedString) →
      Except GecosError (Option GecosSanitizedString)
  | none => Except.ok none
  | some (Except.error e) => Except.error e
  | some (Except.ok val) =>
      if val.str = [] then Except.ok none else Except.ok (some val)

/-- Rust's `collect::<Result<Vec<_>, _>>()`: first error wins, otherwise the
vector of all successes in order. -/
def collectResult :
    List (Except GecosError GecosSanitizedString) →
      Except GecosError (List GecosSanitizedString)
  | [] => Except.ok []
  | x :: xs =>
    match x with
    | Except.error e => Except.error e
    | Except.ok v =>
      match collectResult xs with
      | Except.error e => Except.error e
      | Except.ok vs => Except.ok (v :: vs)

/-- The iterator `splitted` of `from_gecos_string`: the input split on `,`,
each segment mapped through `GecosSanitizedString::new`. -/
def splittedResults (input : List Char) : List (Except GecosError GecosSanitizedString) :=
  (input.splitOn ',').map GecosSanitizedString.new

/-- `Gecos::from_gecos_string`: split the input on `,`, map every segment
through `GecosSanitizedString::new`, consume the first four results for the
fixed slots (in struct-literal order) and collect the remainder into `other`. -/
def Gecos.from_gecos_string (input : List Char) : Except GecosError Gecos :=
  let splitted := splittedResults input
  match gecosStringElementToGecosObjectElement splitted[0]? with
  | Except.error e => Except.error e
  | Except.ok full_name =>
    match gecosStringElementToGecosObjectElement splitted[1]? with
    | Except.error e => Except.error e
    | Except.ok room =>
      match gecosStringElementToGecosObjectElement splitted[2]? with
      | Except.error e => Except.error e
      | Except.ok work_phone =>
        match gecosStringElementToGecosObjectElement splitted[3]? with
        | Except.error e => Except.error e
        | Except.ok home_phone =>
          match collectResult (splitted.drop 4) with
          | Except.error e => Except.error e
          | Except.ok other => Except.ok ⟨full_name, room, work_phone, home_phone, other⟩

/-- The spec side of claim C2: the leftmost forbidden character of a string, in
the input string's own left-to-right order. -/
def leftmostForbidden (s : List Char) : Option Char :=
  s.find? (fun c => forbiddenChars.contains c)

/-- The spec side of claim C7: the five-segment rendering
`seg1,seg2,seg3,seg4,tail` described in the serialization contract, with the
empty string for an absent slot and `tail` the `other` elements joined by
commas. -/
def specSegText : Option GecosSanitizedString → List Char
  | none => []
  | some v => v.str

/-- The spec side of claim C7, assembled from `specSegText`. -/
def specFiveSegment (g : Gecos) : List Char :=
  specSegText g.full_name ++ [','] ++ specSegText g.room ++ [','] ++
  specSegText g.work_phone ++ [','] ++ specSegText g.home_phone ++ [','] ++
  List.intercalate [','] (g.other.map (fun v => v.str))

/-- Claim C3's per-slot contract: a missing segment gives an absent slot, an
empty segment gives an absent slot, and a non-empty segment gives the slot
wrapping exactly that text. -/
def slotMatches (segs : List (List Char)) (k : Nat)
    (slot : Option GecosSanitizedString) : Prop :=
  (segs[k]? = none → slot = none) ∧
  (segs[k]? = some [] → slot = none) ∧
  (∀ v, segs[k]? = some v → v ≠ [] → slot = some ⟨v⟩)

/-- Validity of every sanitized string reachable from a record (the invariant
Rust's type system guarantees for any `Gecos` value), as a boolean. -/
def Gecos.validB (g : Gecos) : Bool :=
  g.full_name.all (fun v => decide v.Valid) &&
  g.room.all (fun v => decide v.Valid) &&
  g.work_phone.all (fun v => decide v.Valid) &&
  g.home_phone.all (fun v => decide v.Valid) &&
  g.other.all (fun v => decide v.Valid)

/-- No fixed slot of the record is present but empty, as a boolean. -/
def Gecos.noPresentEmptyB (g : Gecos) : Bool :=
  g.full_name.all (fun v => !v.str.isEmpty) &&
  g.room.all (fun v => !v.str.isEmpty) &&
  g.work_phone.all (fun v => !v.str.isEmpty) &&
  g.home_phone.all (fun v => !v.str.isEmpty)

/-! Helper lemmas about `GecosSanitizedString.new` -/

theorem new_ok_elim {v : List Char} {u : GecosSanitizedString}
    (h : GecosSanitizedString.new v = Except.ok u) :
    u = ⟨v⟩ ∧ ∀ c ∈ forbiddenChars, c ∉ v := by
  unfold GecosSanitizedString.new at h
  cases hf : forbiddenChars.find? (fun c => v.contains c) with
  | some c => rw [hf] at h; cases h
  | none =>
    rw [hf] at h
    refine ⟨(Except.ok.injEq _ _).mp h |>.symm, fun c hc hcv => ?_⟩
    have := List.find?_eq_none.mp hf c hc
    simp at this
    exact this hcv

theorem new_of_not_forbidden {v : List Char} (h : ∀ c ∈ forbiddenChars, c ∉ v) :
    GecosSanitizedString.new v = Except.ok ⟨v⟩ := by
  unfold GecosSanitizedString.new
  have hf : forbiddenChars.find? (fun c => v.contains c) = none :=
    List.find?_eq_none.mpr (fun c hc => by simp [h c hc])
  rw [hf]

theorem new_error_elim {v : List Char} {c : Char}
    (h : GecosSanitizedString.new v = Except.error (GecosError.IllegalPasswdChar c)) :
    forbiddenChars.find? (fun d => v.contains d) = some c := by
  unfold GecosSanitizedString.new at h
  cases hf : forbiddenChars.find? (fun d => v.contains d) with
  | some d => rw [hf] at h; cases h; rfl
  | none => rw [hf] at h; cases h

theorem new_error_of_forbidden {v : List Char} (h : ∃ c ∈ forbiddenChars, c ∈ v) :
    ∃ c, GecosSanitizedString.new v = Except.error (GecosError.IllegalPasswdChar c) := by
  have hs : (forbiddenChars.find? (fun c => v.contains c)).isSome := by
    rw [List.find?_isSome]
    obtain ⟨c, hc, hcv⟩ := h
    exact ⟨c, hc, by simpa using hcv⟩
  obtain ⟨c, hc⟩ := Option.isSome_iff_exists.mp hs
  exact ⟨c, by unfold GecosSanitizedString.new; rw [hc]⟩

theorem find?_indexOf_le {α : Type} [DecidableEq α] {p : α → Bool} {l : List α} {c : α}
    (h : l.find? p = some c) : ∀ d ∈ l, p d → l.indexOf c ≤ l.indexOf d := by
  induction l with
  | nil => cases h
  | cons x xs ih =>
    intro d hd hpd
    by_cases hx : p x = true
    · rw [List.find?_cons_of_pos _ hx] at h
      cases h
      simp [List.indexOf_cons_self]
    · rw [List.find?_cons_of_neg _ hx] at h
      have hpc := List.find?_some h
      have hcx : x ≠ c := fun he => hx (he ▸ hpc)
      rcases List.mem_cons.mp hd with rfl | hd'
      · exact absurd hpd hx
      · have hdx : x ≠ d := fun he => hx (he ▸ hpd)
        rw [List.indexOf_cons_ne _ hcx, List.indexOf_cons_ne _ hdx]
        exact Nat.succ_le_succ (ih h d hd' hpd)

/-! Helper lemmas about `List.splitOn` and `List.intercalate` -/

theorem splitOn_ne_nil (c : Char) (s : List Char) : s.splitOn c ≠ [] :=
  List.splitOnP_ne_nil _ s

theorem length_splitOn (c : Char) (s : List Char) :
    (s.splitOn c).length = s.count c + 1 := by
  induction s with
  | nil => simp
  | cons a s ih =>
    by_cases hac : a = c
    · subst hac
      simp [List.splitOn, List.splitOnP_cons, List.count_cons] at *
      omega
    · have hbeq : (a == c) = false := beq_false_of_ne hac
      simp [List.splitOn, List.splitOnP_cons, hbeq, List.count_cons] at *
      omega

theorem mem_splitOn_not_mem (c : Char) (s : List Char) : ∀ l ∈ s.splitOn c, c ∉ l := by
  induction s with
  | nil => intro l hl; simp at hl; simp [hl]
  | cons a s ih =>
    intro l hl
    by_cases hac : a = c
    · subst hac
      simp [List.splitOn, List.splitOnP_cons] at hl
      rcases hl with rfl | hl
      · simp
      · exact ih l hl
    · have hbeq : (a == c) = false := beq_false_of_ne hac
      simp only [List.splitOn, List.splitOnP_cons, hbeq, Bool.false_eq_true, if_false] at hl
      cases hsp : s.splitOnP (· == c) with
      | nil => exact absurd hsp (List.splitOnP_ne_nil _ s)
      | cons hd tl =>
        rw [hsp] at hl
        simp only [List.modifyHead] at hl
        rcases List.mem_cons.mp hl with rfl | hl'
        · intro hmem
          rcases List.mem_cons.mp hmem with rfl | hmem'
          · exact hac rfl
          · exact ih hd (by rw [List.splitOn, hsp]; exact List.mem_cons_self _ _) hmem'
        · exact ih l (by rw [List.splitOn, hsp]; exact List.mem_cons_of_mem _ hl')

theorem splitOn_append_sep (c : Char) (s : List Char) :
    (s ++ [c]).splitOn c = s.splitOn c ++ [[]] := by
  induction s with
  | nil => simp [List.splitOn, List.splitOnP_cons]
  | cons a s ih =>
    by_cases hac : a = c
    · subst hac
      simp only [List.cons_append, List.splitOn, List.splitOnP_cons, beq_self_eq_true, if_true]
      rw [← List.splitOn, ← List.splitOn, ih]
    · have hbeq : (a == c) = false := beq_false_of_ne hac
      simp only [List.cons_append, List.splitOn, List.splitOnP_cons, hbeq, Bool.false_eq_true,
        if_false]
      rw [← List.splitOn, ← List.splitOn, ih]
      cases hsp : s.splitOn c with
      | nil => exact absurd hsp (splitOn_ne_nil c s)
      | cons hd tl => rfl

theorem intercalate_cons_of_ne_nil (x : Char) (a : List Char) {l : List (List Char)}
    (h : l ≠ []) :
    List.intercalate [x] (a :: l) = a ++ [x] ++ List.intercalate [x] l := by
  cases l with
  | nil => exact absurd rfl h
  | cons b t => simp [List.intercalate, List.intersperse]

/-! Helper lemmas about `collectResult` and the per-slot conversion -/

theorem collectResult_map_new_ok {xs : List (List Char)} {ys : List GecosSanitizedString}
    (h : collectResult (xs.map GecosSanitizedString.new) = Except.ok ys) :
    ys.map GecosSanitizedString.str = xs := by
  induction xs generalizing ys with
  | nil =>
    simp only [List.map_nil, collectResult] at h
    cases h
    rfl
  | cons x xt ih =>
    simp only [List.map_cons, collectResult] at h
    cases hn : GecosSanitizedString.new x with
    | error e => rw [hn] at h; cases h
    | ok u =>
      rw [hn] at h
      cases hc : collectResult (xt.map GecosSanitizedString.new) with
      | error e => rw [hc] at h; cases h
      | ok vs =>
        rw [hc] at h
        cases h
        obtain ⟨rfl, -⟩ := new_ok_elim hn
        simp [ih hc]

theorem collectResult_of_valid {ys : List GecosSanitizedString}
    (h : ∀ v ∈ ys, v.Valid) :
    collectResult ((ys.map GecosSanitizedString.str).map GecosSanitizedString.new) =
      Except.ok ys := by
  induction ys with
  | nil => rfl
  | cons y yt ih =>
    simp only [List.map_cons]
    rw [new_of_not_forbidden (h y (List.mem_cons_self _ _))]
    simp only [collectResult]
    rw [ih (fun v hv => h v (List.mem_cons_of_mem _ hv))]

theorem collectResult_append_ok {l : List (Except GecosError GecosSanitizedString)}
    {ys : List GecosSanitizedString} (h : collectResult l = Except.ok ys)
    (u : GecosSanitizedString) :
    collectResult (l ++ [Except.ok u]) = Except.ok (ys ++ [u]) := by
  induction l generalizing ys with
  | nil =>
    simp only [collectResult] at h
    cases h
    rfl
  | cons x xt ih =>
    cases x with
    | error e => simp [collectResult] at h
    | ok v =>
      simp only [collectResult] at h
      cases hc : collectResult xt with
      | error e => rw [hc] at h; cases h
      | ok vs =>
        rw [hc] at h
        cases h
        rw [List.cons_append]
        simp only [collectResult]
        rw [ih hc]
        rfl

theorem collectResult_ok_all {l : List (Except GecosError GecosSanitizedString)}
    {ys : List GecosSanitizedString} (h : collectResult l = Except.ok ys) :
    ∀ x ∈ l, ∃ u, x = Except.ok u := by
  induction l generalizing ys with
  | nil => intro x hx; cases hx
  | cons x xt ih =>
    intro z hz
    cases x with
    | error e => simp [collectResult] at h
    | ok v =>
      simp only [collectResult] at h
      cases hc : collectResult xt with
      | error e => rw [hc] at h; cases h
      | ok vs =>
        rcases List.mem_cons.mp hz with rfl | hz'
        · exact ⟨v, rfl⟩
        · exact ih hc z hz'

theorem collectResult_error_of_mem {l : List (Except GecosError GecosSanitizedString)}
    {e : GecosError} (hmem : Except.error e ∈ l) :
    ∃ e', collectResult l = Except.error e' := by
  induction l with
  | nil => cases hmem
  | cons x xt ih =>
    cases x with
    | error e0 => exact ⟨e0, rfl⟩
    | ok v =>
      rcases List.mem_cons.mp hmem with h | h
      · cases h
      · obtain ⟨e', he'⟩ := ih h
        refine ⟨e', ?_⟩
        simp only [collectResult]
        rw [he']

theorem gE_new_ok {v : List Char} {o : Option GecosSanitizedString}
    (h : gecosStringElementToGecosObjectElement (some (GecosSanitizedString.new v)) =
      Except.ok o) :
    gecosElementToString o = v ∧ (v = [] → o = none) ∧ (v ≠ [] → o = some ⟨v⟩) ∧
      ∀ c ∈ forbiddenChars, c ∉ v := by
  cases hn : GecosSanitizedString.new v with
  | error e => rw [hn] at h; cases h
  | ok u =>
    obtain ⟨rfl, hval⟩ := new_ok_elim hn
    rw [hn] at h
    simp only [gecosStringElementToGecosObjectElement] at h
    by_cases hv : v = []
    · subst hv
      rw [if_pos rfl] at h
      cases h
      exact ⟨rfl, fun _ => rfl, fun hne => absurd rfl hne, hval⟩
    · rw [if_neg hv] at h
      cases h
      exact ⟨rfl, fun he => absurd he hv, fun _ => rfl, hval⟩

theorem gE_error_elim {x : Option (Except GecosError GecosSanitizedString)} {e : GecosError}
    (h : gecosStringElementToGecosObjectElement x = Except.error e) :
    x = some (Except.error e) := by
  match x with
  | none => cases h
  | some (Except.error e') =>
    simp only [gecosStringElementToGecosObjectElement] at h
    cases h
    rfl
  | some (Except.ok val) =>
    simp only [gecosStringElementToGecosObjectElement] at h
    split at h <;> cases h

theorem gE_some_new_of_valid {u : GecosSanitizedString} (hval : u.Valid)
    (hne : u.str ≠ []) :
    gecosStringElementToGecosObjectElement (some (GecosSanitizedString.new u.str)) =
      Except.ok (some u) := by
  rw [new_of_not_forbidden hval]
  simp only [gecosStringElementToGecosObjectElement]
  rw [if_neg hne]

theorem gE_some_new_nil :
    gecosStringElementToGecosObjectElement (some (GecosSanitizedString.new [])) =
      Except.ok none := rfl

/-! Inversion of `from_gecos_string` -/

theorem from_gecos_string_ok_iff {s : List Char} {g : Gecos} :
    Gecos.from_gecos_string s = Except.ok g ↔
      gecosStringElementToGecosObjectElement (splittedResults s)[0]? =
          Except.ok g.full_name ∧
      gecosStringElementToGecosObjectElement (splittedResults s)[1]? =
          Except.ok g.room ∧
      gecosStringElementToGecosObjectElement (splittedResults s)[2]? =
          Except.ok g.work_phone ∧
      gecosStringElementToGecosObjectElement (splittedResults s)[3]? =
          Except.ok g.home_phone ∧
      collectResult ((splittedResults s).drop 4) = Except.ok g.other := by
  obtain ⟨gf, gr, gw, gh, go⟩ := g
  unfold Gecos.from_gecos_string
  cases E0 : gecosStringElementToGecosObjectElement (splittedResults s)[0]? with
  | error e => simp [E0]
  | ok f =>
    cases E1 : gecosStringElementToGecosObjectElement (splittedResults s)[1]? with
    | error e => simp [E0, E1]
    | ok r =>
      cases E2 : gecosStringElementToGecosObjectElement (splittedResults s)[2]? with
      | error e => simp [E0, E1, E2]
      | ok w =>
        cases E3 : gecosStringElementToGecosObjectElement (splittedResults s)[3]? with
        | error e => simp [E0, E1, E2, E3]
        | ok h =>
          cases E4 : collectResult ((splittedResults s).drop 4) with
          | error e => simp [E0, E1, E2, E3, E4]
          | ok o =>
            simp only [E0, E1, E2, E3, E4, Except.ok.injEq, Gecos.mk.injEq]

theorem splitted_getElem? (s : List Char) (k : Nat) :
    (splittedResults s)[k]? = ((s.splitOn ',')[k]?).map GecosSanitizedString.new := by
  unfold splittedResults
  exact List.getElem?_map _ _ _

theorem slotMatches_of_gE {s : List Char} {k : Nat} {slot : Option GecosSanitizedString}
    (h : gecosStringElementToGecosObjectElement (splittedResults s)[k]? = Except.ok slot) :
    slotMatches (s.splitOn ',') k slot := by
  rw [splitted_getElem?] at h
  cases hk : (s.splitOn ',')[k]? with
  | none =>
    rw [hk] at h
    simp only [Option.map_none'] at h
    cases h
    refine ⟨fun _ => rfl, fun _ => rfl, fun v hv => ?_⟩
    rw [hk] at hv
    cases hv
  | some v =>
    rw [hk] at h
    simp only [Option.map_some'] at h
    obtain ⟨-, hnil, hne, -⟩ := gE_new_ok h
    refine ⟨fun hc => ?_, fun hc => ?_, fun u hu hune => ?_⟩
    · rw [hk] at hc
      cases hc
    · rw [hk] at hc
      cases hc
      exact hnil rfl
    · rw [hk] at hu
      cases hu
      exact hne hune

/-- Claim C3: `from_gecos_string` consumes the comma-split segments positionally
for `full_name`, `room`, `work_phone`, `home_phone`; for each of the four slots
a missing segment gives `None`, an empty segment gives `None`, and a non-empty
segment gives the slot wrapping that text; and parsing the single-segment input
"Some Person" yields only `full_name` set, with empty `other`. -/
theorem c3_positional_consumption :
    (∀ (s : List Char) (g : Gecos), Gecos.from_gecos_string s = Except.ok g →
      slotMatches (s.splitOn ',') 0 g.full_name ∧
      slotMatches (s.splitOn ',') 1 g.room ∧
      slotMatches (s.splitOn ',') 2 g.work_phone ∧
      slotMatches (s.splitOn ',') 3 g.home_phone) ∧
    Gecos.from_gecos_string ("Some Person".toList) =
      Except.ok ⟨some ⟨"Some Person".toList⟩, none, none, none, []⟩ := by
  constructor
  · intro s g hg
    obtain ⟨h0, h1, h2, h3, -⟩ := from_gecos_string_ok_iff.mp hg
    exact ⟨slotMatches_of_gE h0, slotMatches_of_gE h1, slotMatches_of_gE h2,
      slotMatches_of_gE h3⟩
  · decide

/-- Witness for C3 at the concrete input "a,b": the second slot (`room`) wraps
the non-empty second segment. -/
theorem c3_positional_consumption_witness :
    slotMatches (("a,b".toList).splitOn ',') 1 (some ⟨"b".toList⟩) :=
  (c3_positional_consumption.1 ("a,b".toList)
    ⟨some ⟨"a".toList⟩, some ⟨"b".toList⟩, none, none, []⟩ (by decide)).2.1

/-- Claim C4 counterexample: parsing "Some Person,,,," does not give an empty
`other` list; the trailing empty tail segment is kept as a present empty-text
element. -/
theorem c4_counterexample :
    Gecos.from_gecos_string ("Some Person,,,,".toList) =
      Except.ok ⟨some ⟨"Some Person".toList⟩, none, none, none, [⟨[]⟩]⟩ ∧
    ([⟨[]⟩] : List GecosSanitizedString) ≠ [] :=
  ⟨by decide, by decide⟩

/-- Claim C4 (amended): parsing "Some Person,,,," succeeds with `full_name` set
to "Some Person", `room`/`work_phone`/`home_phone` absent, and `other` equal to
the one-element list containing the empty string. -/
theorem c4_amended :
    Gecos.from_gecos_string ("Some Person,,,,".toList) =
      Except.ok ⟨some ⟨"Some Person".toList⟩, none, none, none, [⟨[]⟩]⟩ := by
  decide

/-- Claim C7: `to_gecos_string` is total and produces the five-segment string
`seg1,seg2,seg3,seg4,tail` (absent slots rendered as the empty string, `tail`
the comma-join of `other`); in particular the all-absent record serializes to
",,,,". -/
theorem c7_serialization_contract :
    (∀ g : Gecos, g.to_gecos_string = specFiveSegment g) ∧
    Gecos.to_gecos_string ⟨none, none, none, none, []⟩ = ",,,,".toList := by
  constructor
  · intro g
    obtain ⟨f, r, w, h, o⟩ := g
    cases f <;> cases r <;> cases w <;> cases h <;> rfl
  · decide

/-- Claim C8: any string free of the six forbidden characters is accepted by
`GecosSanitizedString::new` and rendered back unchanged by `Display`. -/
theorem c8_identity :
    ∀ s : List Char, (∀ c ∈ forbiddenChars, c ∉ s) →
      ∃ v, GecosSanitizedString.new s = Except.ok v ∧ v.display = s := by
  intro s hs
  exact ⟨⟨s⟩, new_of_not_forbidden hs, rfl⟩

/-- Witness for C8 at a concrete string with leading/trailing whitespace and
mixed case. -/
theorem c8_identity_witness :
    ∃ v, GecosSanitizedString.new ("  Hello World  ".toList) = Except.ok v ∧
      v.display = "  Hello World  ".toList :=
  c8_identity _ (by decide)

/-- Claim C2 counterexample: the input ":x," contains ':' as its leftmost
forbidden character, yet `new` reports ',' (the first hit in the fixed probe
order), so the reported character is not the leftmost forbidden character of
the input. -/
theorem c2_counterexample :
    GecosSanitizedString.new (":x,".toList) =
      Except.error (GecosError.IllegalPasswdChar ',') ∧
    leftmostForbidden (":x,".toList) = some ':' ∧
    (',' : Char) ≠ ':' :=
  ⟨by decide, by decide, by decide⟩

/-- Claim C2 (amended): for every input containing at least one forbidden
character, construction fails with `IllegalPasswdChar` carrying the first
character of the fixed probe list `',' ':' '=' '\' '"' '\n'` that occurs
anywhere in the input (not the leftmost forbidden character of the input). -/
theorem c2_amended_first_probe :
    ∀ s : List Char, (∃ c ∈ forbiddenChars, c ∈ s) →
      ∃ c, GecosSanitizedString.new s = Except.error (GecosError.IllegalPasswdChar c) ∧
        c ∈ forbiddenChars ∧ c ∈ s ∧
        ∀ d ∈ forbiddenChars, d ∈ s →
          forbiddenChars.indexOf c ≤ forbiddenChars.indexOf d := by
  intro s hs
  obtain ⟨c, hc⟩ := new_error_of_forbidden hs
  have hf := new_error_elim hc
  refine ⟨c, hc, List.mem_of_find?_eq_some hf, by simpa using List.find?_some hf,
    fun d hd hds => ?_⟩
  exact find?_indexOf_le hf d hd (by simpa using hds)

/-- Witness for C2 (amended) at the concrete input ":x,". -/
theorem c2_amended_first_probe_witness :
    ∃ c, GecosSanitizedString.new (":x,".toList) =
        Except.error (GecosError.IllegalPasswdChar c) ∧
      c ∈ forbiddenChars ∧ c ∈ (":x,".toList) ∧
      ∀ d ∈ forbiddenChars, d ∈ (":x,".toList) →
        forbiddenChars.indexOf c ≤ forbiddenChars.indexOf d :=
  c2_amended_first_probe _ (by decide)

/-- Claim C10: when `new` fails, the reported character is a forbidden
character occurring in the input that comes first in the fixed probe order
`',' ':' '=' '\' '"' '\n'` among all forbidden characters occurring in the
input, regardless of positions; in particular ":x," yields
`IllegalPasswdChar(',')`. -/
theorem c10_probe_order :
    (∀ (s : List Char) (c : Char),
      GecosSanitizedString.new s = Except.error (GecosError.IllegalPasswdChar c) →
        c ∈ forbiddenChars ∧ c ∈ s ∧
        ∀ d ∈ forbiddenChars, d ∈ s →
          forbiddenChars.indexOf c ≤ forbiddenChars.indexOf d) ∧
    GecosSanitizedString.new (":x,".toList) =
      Except.error (GecosError.IllegalPasswdChar ',') := by
  constructor
  · intro s c hc
    have hf := new_error_elim hc
    exact ⟨List.mem_of_find?_eq_some hf, by simpa using List.find?_some hf,
      fun d hd hds => find?_indexOf_le hf d hd (by simpa using hds)⟩
  · decide

/-- Witness for C10 at the concrete input ":x,". -/
theorem c10_probe_order_witness :
    (',' : Char) ∈ forbiddenChars ∧ ',' ∈ (":x,".toList) ∧
      ∀ d ∈ forbiddenChars, d ∈ (":x,".toList) →
        forbiddenChars.indexOf ',' ≤ forbiddenChars.indexOf d :=
  c10_probe_order.1 (":x,".toList) ',' (by decide)

theorem gE_ok_exists {s : List Char} {k : Nat}
    (hgood : ∀ seg ∈ s.splitOn ',', ∀ c ∈ forbiddenChars, c ∉ seg) :
    ∃ slot, gecosStringElementToGecosObjectElement (splittedResults s)[k]? =
      Except.ok slot := by
  rw [splitted_getElem?]
  cases hk : (s.splitOn ',')[k]? with
  | none => exact ⟨none, rfl⟩
  | some v =>
    have hv := hgood v (List.getElem?_mem hk)
    simp only [Option.map_some']
    rw [new_of_not_forbidden hv]
    simp only [gecosStringElementToGecosObjectElement]
    by_cases hnil : v = []
    · exact ⟨none, by rw [if_pos hnil]⟩
    · exact ⟨some ⟨v⟩, by rw [if_neg hnil]⟩

theorem collectResult_ok_exists {l : List (Except GecosError GecosSanitizedString)}
    (h : ∀ x ∈ l, ∃ u, x = Except.ok u) : ∃ ys, collectResult l = Except.ok ys := by
  induction l with
  | nil => exact ⟨[], rfl⟩
  | cons x xt ih =>
    obtain ⟨u, rfl⟩ := h x (List.mem_cons_self _ _)
    obtain ⟨ys, hys⟩ := ih (fun z hz => h z (List.mem_cons_of_mem _ hz))
    refine ⟨u :: ys, ?_⟩
    simp only [collectResult]
    rw [hys]

theorem parse_ok_of_good {s : List Char}
    (hgood : ∀ seg ∈ s.splitOn ',', ∀ c ∈ forbiddenChars, c ∉ seg) :
    ∃ g, Gecos.from_gecos_string s = Except.ok g := by
  obtain ⟨f, h0⟩ := gE_ok_exists (k := 0) hgood
  obtain ⟨r, h1⟩ := gE_ok_exists (k := 1) hgood
  obtain ⟨w, h2⟩ := gE_ok_exists (k := 2) hgood
  obtain ⟨m, h3⟩ := gE_ok_exists (k := 3) hgood
  have hall : ∀ x ∈ (splittedResults s).drop 4, ∃ u, x = Except.ok u := by
    intro x hx
    have hx' : x ∈ splittedResults s := List.mem_of_mem_drop hx
    unfold splittedResults at hx'
    obtain ⟨seg, hseg, rfl⟩ := List.mem_map.mp hx'
    exact ⟨⟨seg⟩, new_of_not_forbidden (hgood seg hseg)⟩
  obtain ⟨o, h4⟩ := collectResult_ok_exists hall
  exact ⟨⟨f, r, w, m, o⟩, from_gecos_string_ok_iff.mpr ⟨h0, h1, h2, h3, h4⟩⟩

theorem good_of_parse_ok {s : List Char} {g : Gecos}
    (hg : Gecos.from_gecos_string s = Except.ok g) :
    ∀ seg ∈ s.splitOn ',', ∀ c ∈ forbiddenChars, c ∉ seg := by
  obtain ⟨h0, h1, h2, h3, h4⟩ := from_gecos_string_ok_iff.mp hg
  intro seg hseg
  obtain ⟨k, hk⟩ := List.mem_iff_getElem?.mp hseg
  rcases k with _ | _ | _ | _ | k
  · rw [splitted_getElem?, hk, Option.map_some'] at h0
    exact (gE_new_ok h0).2.2.2
  · rw [splitted_getElem?, hk, Option.map_some'] at h1
    exact (gE_new_ok h1).2.2.2
  · rw [splitted_getElem?, hk, Option.map_some'] at h2
    exact (gE_new_ok h2).2.2.2
  · rw [splitted_getElem?, hk, Option.map_some'] at h3
    exact (gE_new_ok h3).2.2.2
  · have hk' : (s.splitOn ',')[4 + k]? = some seg := by
      rw [show 4 + k = k + 1 + 1 + 1 + 1 from by omega]
      exact hk
    have hdrop : ((s.splitOn ',').drop 4)[k]? = some seg := by
      rw [List.getElem?_drop]
      exact hk'
    have hmem : GecosSanitizedString.new seg ∈ (splittedResults s).drop 4 := by
      unfold splittedResults
      rw [← List.map_drop]
      exact List.mem_map_of_mem _ (List.getElem?_mem hdrop)
    obtain ⟨u, hu⟩ := collectResult_ok_all h4 _ hmem
    exact (new_ok_elim hu).2

/-- Claim C6: `from_gecos_string` fails if and only if some comma-split segment
of the input contains a forbidden character (the whole parse aborts, never a
partial record); in particular parsing "a,:,c,d,e" fails with
`IllegalPasswdChar(':')`. -/
theorem c6_error_iff_forbidden_segment :
    (∀ s : List Char,
      (∃ e, Gecos.from_gecos_string s = Except.error e) ↔
        ∃ seg ∈ s.splitOn ',', ∃ c ∈ forbiddenChars, c ∈ seg) ∧
    Gecos.from_gecos_string ("a,:,c,d,e".toList) =
      Except.error (GecosError.IllegalPasswdChar ':') := by
  constructor
  · intro s
    constructor
    · rintro ⟨e, he⟩
      by_contra hno
      push_neg at hno
      obtain ⟨g, hg⟩ := parse_ok_of_good hno
      rw [hg] at he
      cases he
    · intro hbad
      cases hp : Gecos.from_gecos_string s with
      | error e => exact ⟨e, rfl⟩
      | ok g =>
        obtain ⟨seg, hseg, c, hc, hcs⟩ := hbad
        exact absurd hcs (good_of_parse_ok hp seg hseg c hc)
  · decide

/-- Witness for C6: the input "x,=" has a segment containing the forbidden
character '=', so parsing it fails. -/
theorem c6_error_iff_forbidden_segment_witness :
    ∃ e, Gecos.from_gecos_string ("x,=".toList) = Except.error e :=
  (c6_error_iff_forbidden_segment.1 ("x,=".toList)).mpr (by decide)

theorem getElem?_cons4 (a b c d : List Char) (t : List (List Char)) :
    (a :: b :: c :: d :: t)[0]? = some a ∧ (a :: b :: c :: d :: t)[1]? = some b ∧
    (a :: b :: c :: d :: t)[2]? = some c ∧ (a :: b :: c :: d :: t)[3]? = some d ∧
    (a :: b :: c :: d :: t).drop 4 = t :=
  ⟨rfl, rfl, rfl, by simp, rfl⟩

/-- Claim C9 (implicit): for every input with at least four commas on which
parsing succeeds, re-serializing the parsed record reproduces the input
exactly. -/
theorem c9_reverse_round_trip :
    ∀ (s : List Char) (g : Gecos), 4 ≤ s.count ',' →
      Gecos.from_gecos_string s = Except.ok g → g.to_gecos_string = s := by
  intro s g hcount hg
  obtain ⟨h0, h1, h2, h3, h4⟩ := from_gecos_string_ok_iff.mp hg
  have hlen : 5 ≤ (s.splitOn ',').length := by
    rw [length_splitOn]
    omega
  have hinter : List.intercalate [','] (s.splitOn ',') = s := List.intercalate_splitOn s ','
  rcases hsp : s.splitOn ',' with _ | ⟨s0, _ | ⟨s1, _ | ⟨s2, _ | ⟨s3, rest⟩⟩⟩⟩
  · rw [hsp] at hlen; simp at hlen
  · rw [hsp] at hlen; simp at hlen
  · rw [hsp] at hlen; simp at hlen
  · rw [hsp] at hlen; simp at hlen
  · have hrest : rest ≠ [] := by
      intro hr
      rw [hsp, hr] at hlen
      simp at hlen
    rw [splitted_getElem?, hsp, (getElem?_cons4 s0 s1 s2 s3 rest).1,
      Option.map_some'] at h0
    rw [splitted_getElem?, hsp, (getElem?_cons4 s0 s1 s2 s3 rest).2.1,
      Option.map_some'] at h1
    rw [splitted_getElem?, hsp, (getElem?_cons4 s0 s1 s2 s3 rest).2.2.1,
      Option.map_some'] at h2
    rw [splitted_getElem?, hsp, (getElem?_cons4 s0 s1 s2 s3 rest).2.2.2.1,
      Option.map_some'] at h3
    have t0 := (gE_new_ok h0).1
    have t1 := (gE_new_ok h1).1
    have t2 := (gE_new_ok h2).1
    have t3 := (gE_new_ok h3).1
    unfold splittedResults at h4
    rw [← List.map_drop, hsp, (getElem?_cons4 s0 s1 s2 s3 rest).2.2.2.2] at h4
    have hoth := collectResult_map_new_ok h4
    rw [← hinter, hsp]
    rw [intercalate_cons_of_ne_nil _ _ (by simp), intercalate_cons_of_ne_nil _ _ (by simp),
      intercalate_cons_of_ne_nil _ _ (by simp), intercalate_cons_of_ne_nil _ _ hrest]
    unfold Gecos.to_gecos_string
    rw [t0, t1, t2, t3, hoth]
    simp [List.append_assoc]

/-- Witness for C9 at the concrete input ",,,," (four commas): the parsed record
re-serializes to ",,,," exactly. -/
theorem c9_reverse_round_trip_witness :
    Gecos.to_gecos_string ⟨none, none, none, none, [⟨[]⟩]⟩ = ",,,,".toList :=
  c9_reverse_round_trip (",,,,".toList) ⟨none, none, none, none, [⟨[]⟩]⟩
    (by decide) (by decide)

/-- Claim C5: an empty segment in the tail region is kept as a present
empty-text element of `other`; appending one trailing comma to any
successfully-parsed input whose `other` is non-empty appends exactly one
empty-string element to `other`. -/
theorem c5_trailing_comma_tail :
    ∀ (s : List Char) (g : Gecos), Gecos.from_gecos_string s = Except.ok g →
      g.other ≠ [] →
      Gecos.from_gecos_string (s ++ [',']) =
        Except.ok ⟨g.full_name, g.room, g.work_phone, g.home_phone,
          g.other ++ [⟨[]⟩]⟩ := by
  intro s g hg hne
  obtain ⟨h0, h1, h2, h3, h4⟩ := from_gecos_string_ok_iff.mp hg
  unfold splittedResults at h4
  rw [← List.map_drop] at h4
  have hstr := collectResult_map_new_ok h4
  have hdropne : (s.splitOn ',').drop 4 ≠ [] := by
    intro hnil
    rw [hnil] at hstr
    exact hne (List.map_eq_nil_iff.mp hstr)
  have hlt : 4 < (s.splitOn ',').length := by
    by_contra hle
    push_neg at hle
    exact hdropne (List.drop_eq_nil_iff.mpr hle)
  have hsp' : (s ++ [',']).splitOn ',' = s.splitOn ',' ++ [[]] := splitOn_append_sep ',' s
  refine from_gecos_string_ok_iff.mpr ⟨?_, ?_, ?_, ?_, ?_⟩
  · rw [splitted_getElem?, hsp', List.getElem?_append_left (by omega), ← splitted_getElem?]
    exact h0
  · rw [splitted_getElem?, hsp', List.getElem?_append_left (by omega), ← splitted_getElem?]
    exact h1
  · rw [splitted_getElem?, hsp', List.getElem?_append_left (by omega), ← splitted_getElem?]
    exact h2
  · rw [splitted_getElem?, hsp', List.getElem?_append_left (by omega), ← splitted_getElem?]
    exact h3
  · unfold splittedResults
    rw [hsp', List.map_append,
      List.drop_append_of_le_length (by rw [List.length_map]; omega)]
    rw [← List.map_drop]
    exact collectResult_append_ok h4 ⟨[]⟩

/-- Witness for C5 at the concrete input ",,,," (whose `other` is the singleton
empty element): one more trailing comma appends one more empty element. -/
theorem c5_trailing_comma_tail_witness :
    Gecos.from_gecos_string (",,,,".toList ++ [',']) =
      Except.ok ⟨none, none, none, none, [⟨[]⟩, ⟨[]⟩]⟩ :=
  c5_trailing_comma_tail (",,,,".toList) ⟨none, none, none, none, [⟨[]⟩]⟩
    (by decide) (by decide)

theorem option_all_valid {o : Option GecosSanitizedString}
    (h : o.all (fun v => decide v.Valid) = true) : ∀ v, o = some v → v.Valid := by
  intro v hv
  rw [hv] at h
  simp only [Option.all_some] at h
  exact of_decide_eq_true h

theorem option_all_ne_nil {o : Option GecosSanitizedString}
    (h : o.all (fun v => !v.str.isEmpty) = true) : ∀ v, o = some v → v.str ≠ [] := by
  intro v hv hnil
  rw [hv] at h
  simp only [Option.all_some] at h
  rw [hnil] at h
  simp at h

theorem slot_text_lemma {o : Option GecosSanitizedString}
    (hval : ∀ v, o = some v → v.Valid) (hne : ∀ v, o = some v → v.str ≠ []) :
    gecosStringElementToGecosObjectElement
        (some (GecosSanitizedString.new (gecosElementToString o))) = Except.ok o ∧
      ∀ c ∈ forbiddenChars, c ∉ gecosElementToString o := by
  cases o with
  | none =>
    refine ⟨gE_some_new_nil, ?_⟩
    intro c _
    simp [gecosElementToString]
  | some v => exact ⟨gE_some_new_of_valid (hval v rfl) (hne v rfl), hval v rfl⟩

/-- Claim C1 counterexample: the all-absent record with empty `other` satisfies
the claim's hypothesis (no present-but-empty fixed slot), yet parsing its
serialization ",,,," yields a record whose `other` holds one empty element, not
the original record. -/
theorem c1_counterexample :
    Gecos.validB ⟨none, none, none, none, []⟩ = true ∧
    Gecos.noPresentEmptyB ⟨none, none, none, none, []⟩ = true ∧
    Gecos.from_gecos_string (Gecos.to_gecos_string ⟨none, none, none, none, []⟩) =
      Except.ok ⟨none, none, none, none, [⟨[]⟩]⟩ ∧
    (⟨none, none, none, none, [⟨[]⟩]⟩ : Gecos) ≠ ⟨none, none, none, none, []⟩ :=
  ⟨by decide, by decide, by decide, by decide⟩

/-- Claim C1 (amended): for every valid record with no present-but-empty fixed
slot AND a non-empty `other` list, parsing the serialization reconstructs the
record exactly.  (With empty `other` the serialization carries a trailing
comma, which re-parses as one extra empty `other` element.) -/
theorem c1_round_trip_amended :
    ∀ g : Gecos, g.validB = true → g.noPresentEmptyB = true → g.other ≠ [] →
      Gecos.from_gecos_string g.to_gecos_string = Except.ok g := by
  intro g hv hne ho
  simp only [Gecos.validB, Bool.and_eq_true] at hv
  obtain ⟨⟨⟨⟨hvf, hvr⟩, hvw⟩, hvh⟩, hvo⟩ := hv
  simp only [Gecos.noPresentEmptyB, Bool.and_eq_true] at hne
  obtain ⟨⟨⟨hnf, hnr⟩, hnw⟩, hnh⟩ := hne
  have hovalid : ∀ v ∈ g.other, v.Valid := by
    intro v hv'
    exact of_decide_eq_true (List.all_eq_true.mp hvo v hv')
  have hf := slot_text_lemma (option_all_valid hvf) (option_all_ne_nil hnf)
  have hr := slot_text_lemma (option_all_valid hvr) (option_all_ne_nil hnr)
  have hw := slot_text_lemma (option_all_valid hvw) (option_all_ne_nil hnw)
  have hh := slot_text_lemma (option_all_valid hvh) (option_all_ne_nil hnh)
  have hmap : g.other.map GecosSanitizedString.str ≠ [] := by
    simpa [List.map_eq_nil_iff] using ho
  have hser : Gecos.to_gecos_string g =
      List.intercalate [','] (gecosElementToString g.full_name ::
        gecosElementToString g.room :: gecosElementToString g.work_phone ::
        gecosElementToString g.home_phone :: g.other.map GecosSanitizedString.str) := by
    rw [intercalate_cons_of_ne_nil _ _ (by simp), intercalate_cons_of_ne_nil _ _ (by simp),
      intercalate_cons_of_ne_nil _ _ (by simp), intercalate_cons_of_ne_nil _ _ hmap]
    unfold Gecos.to_gecos_string
    simp [List.append_assoc]
  have hnc : ∀ l ∈ (gecosElementToString g.full_name ::
      gecosElementToString g.room :: gecosElementToString g.work_phone ::
      gecosElementToString g.home_phone :: g.other.map GecosSanitizedString.str),
      ',' ∉ l := by
    intro l hl
    rcases List.mem_cons.mp hl with rfl | hl
    · exact hf.2 ',' (by decide)
    rcases List.mem_cons.mp hl with rfl | hl
    · exact hr.2 ',' (by decide)
    rcases List.mem_cons.mp hl with rfl | hl
    · exact hw.2 ',' (by decide)
    rcases List.mem_cons.mp hl with rfl | hl
    · exact hh.2 ',' (by decide)
    obtain ⟨v, hv', rfl⟩ := List.mem_map.mp hl
    exact hovalid v hv' ',' (by decide)
  have hsplit : (Gecos.to_gecos_string g).splitOn ',' =
      gecosElementToString g.full_name :: gecosElementToString g.room ::
      gecosElementToString g.work_phone :: gecosElementToString g.home_phone ::
      g.other.map GecosSanitizedString.str := by
    rw [hser]
    exact List.splitOn_intercalate _ ',' hnc (by simp)
  refine from_gecos_string_ok_iff.mpr ⟨?_, ?_, ?_, ?_, ?_⟩
  · rw [splitted_getElem?, hsplit, (getElem?_cons4 _ _ _ _ _).1, Option.map_some']
    exact hf.1
  · rw [splitted_getElem?, hsplit, (getElem?_cons4 _ _ _ _ _).2.1, Option.map_some']
    exact hr.1
  · rw [splitted_getElem?, hsplit, (getElem?_cons4 _ _ _ _ _).2.2.1, Option.map_some']
    exact hw.1
  · rw [splitted_getElem?, hsplit, (getElem?_cons4 _ _ _ _ _).2.2.2.1, Option.map_some']
    exact hh.1
  · unfold splittedResults
    rw [← List.map_drop, hsplit, (getElem?_cons4 _ _ _ _ _).2.2.2.2]
    exact collectResult_of_valid hovalid

/-- Witness for C1 (amended) at a concrete valid record with a set `full_name`
and a one-element `other`. -/
theorem c1_round_trip_amended_witness :
    Gecos.from_gecos_string
        (Gecos.to_gecos_string ⟨some ⟨"Guest".toList⟩, none, none, none,
          [⟨"info".toList⟩]⟩) =
      Except.ok ⟨some ⟨"Guest".toList⟩, none, none, none, [⟨"info".toList⟩]⟩ :=
  c1_round_trip_amended _ (by decide) (by decide) (by decide)

